import Mathlib

/-!
# Verification of the rholearn equivariant-model subsystem

The repository ships the subsystem as notebook glue around the `rholearn`
library (modules `spherical`, `models`, `loss`, `utils`); the library modules
themselves are not part of the shipped sources, only their callers are.  All
definitions below are therefore modelled from the specification of the
subsystem: the keyed block collections, the per-block local models (linear and
nonlinear with invariant gating), the global model with missing-key padding,
the equivariance verifier, the Coulomb bilinear loss, and the Wigner rotation
engine.  Numeric data is modelled exactly: block data over `ℚ`, the Wigner
matrices over `ℂ`; floating-point tolerance comparisons become exact rational
comparisons against the documented tolerances.
-/

open scoped Matrix

namespace Rho

/-- Modelled from the spec: a key of a keyed block collection, a pair of the
angular order `lam` (the spec's λ, `spherical_harmonics_l`) and the chemical
species (`species_center`). -/
structure Key where
  lam : ℕ
  species : ℕ
deriving DecidableEq

/-- Raw block data: a 3-axis array addressed by (sample, component, property).
Entries outside a block's shape are irrelevant. -/
abbrev Vals := ℕ → ℕ → ℕ → ℚ

/-- Modelled from the spec: a block of a keyed collection, with a samples axis
of size `ns`, one components axis of size `nc` (`2·λ+1` for order-λ data) and a
properties axis of size `np`. -/
structure Block where
  ns : ℕ
  nc : ℕ
  np : ℕ
  vals : Vals

/-- Modelled from the spec: a keyed block collection (the external tensor-map
container), a mapping from keys to blocks with insertion order kept. -/
abbrev TMap := List (Key × Block)

/-- Lookup of the block stored at a key (first occurrence; the spec requires
keys to be unique within a collection). -/
def tmLookup : TMap → Key → Option Block
  | [], _ => none
  | (k', b) :: rest, k => if k' = k then some b else tmLookup rest k

/-- The keys of a collection, in storage order. -/
def tmKeys (t : TMap) : List Key := t.map Prod.fst

/-- Modelled from the spec: the error taxonomy of the subsystem. -/
inductive RhoError where
  | configError
  | dimensionMismatch
  | missingInvariant
  | structureMismatch
  | invalidOrder
deriving DecidableEq

/-- Modelled from the spec: the action of an order-λ rotation matrix `D`
(a `(2λ+1) × (2λ+1)` Wigner-D matrix) on the components axis of raw block
data: each irreducible spherical component vector is multiplied by `D`. -/
def rotVals (lam : ℕ) (D : ℕ → ℕ → ℚ) (X : Vals) : Vals :=
  fun s c p => ∑ cp in Finset.range (2 * lam + 1), D c cp * X s cp p

/-- The rotation action on a whole block (shape unchanged). -/
def rotBlock (lam : ℕ) (D : ℕ → ℕ → ℚ) (b : Block) : Block :=
  ⟨b.ns, b.nc, b.np, rotVals lam D b.vals⟩

/-- The rotation action on a whole collection: every block is rotated by the
matrix of its own key's angular order, drawn from the family `Df`. -/
def rotTMap (Df : ℕ → ℕ → ℕ → ℚ) (t : TMap) : TMap :=
  t.map fun e => (e.1, rotBlock e.1.lam (Df e.1.lam) e.2)

/-- Modelled from the spec: the enumerated set of activation functions
available to the invariant feed-forward sub-network. -/
inductive Activation where
  | tanh
  | gelu
  | silu

/-- Modelled from the spec: one layer of the invariant feed-forward
sub-network: either an affine layer (weights and bias, biases being permitted
throughout the network since it only touches invariant data) or an activation
layer. -/
inductive NNLayer where
  | affine (nin nout : ℕ) (W : ℕ → ℕ → ℚ) (b : ℕ → ℚ)
  | act (a : Activation)

/-- Whether a layer is an affine (linear) layer. -/
def NNLayer.isAffine : NNLayer → Bool
  | .affine _ _ _ _ => true
  | .act _ => false

/-- Whether a layer is an activation layer. -/
def NNLayer.isAct : NNLayer → Bool
  | .affine _ _ _ _ => false
  | .act _ => true

/-- Evaluation of one layer on a property vector, the numeric meaning of the
activation functions being supplied by `σf`. -/
def evalLayer (σf : Activation → ℚ → ℚ) : NNLayer → (ℕ → ℚ) → (ℕ → ℚ)
  | .affine nin _ W b, v => fun p => (∑ q in Finset.range nin, W p q * v q) + b p
  | .act a, v => fun p => σf a (v p)

/-- Evaluation of a whole layer list, first layer applied first. -/
def evalNN (σf : Activation → ℚ → ℚ) : List NNLayer → (ℕ → ℚ) → (ℕ → ℚ)
  | [], v => v
  | l :: rest, v => evalNN σf rest (evalLayer σf l v)

/-- Modelled from the spec: builder of the invariant feed-forward network from
the ordered hidden-layer widths.  `cur` is the incoming width, `i` numbers the
affine layers, `Wh`/`bh` supply the weights of the `i`-th affine layer; a
widths list of length `n` yields `n` affine layers with `n−1` activation
functions interleaved between consecutive affine layers. -/
def mkFFN (a : Activation) (Wh : ℕ → ℕ → ℕ → ℚ) (bh : ℕ → ℕ → ℚ) :
    ℕ → ℕ → List ℕ → List NNLayer
  | _, _, [] => []
  | i, cur, w :: ws =>
    match ws with
    | [] => [NNLayer.affine cur w (Wh i) (bh i)]
    | _ :: _ => NNLayer.affine cur w (Wh i) (bh i) :: NNLayer.act a ::
        mkFFN a Wh bh (i + 1) w ws

/-- Modelled from the spec: a per-key local model, in its two variants.  The
linear variant is a single weight matrix with optional bias; the nonlinear
variant is an input projection (optional bias), the invariant gate network, and
an output projection (optional bias).  `nin` is the input property width,
`nmid` the width of the projected block and of the gate vector, `nout` the
output property width. -/
inductive LocalModel where
  | linear (nin nout : ℕ) (W : ℕ → ℕ → ℚ) (bias : Option (ℕ → ℚ))
  | nonlinear (nin nmid nout : ℕ) (Win : ℕ → ℕ → ℚ) (biasIn : Option (ℕ → ℚ))
      (nn : List NNLayer) (Wout : ℕ → ℕ → ℚ) (biasOut : Option (ℕ → ℚ))

/-- Output property width of a local model. -/
def LocalModel.nout : LocalModel → ℕ
  | .linear _ o _ _ => o
  | .nonlinear _ _ o _ _ _ _ _ => o

/-- Input property width of a local model. -/
def LocalModel.nin : LocalModel → ℕ
  | .linear i _ _ _ => i
  | .nonlinear i _ _ _ _ _ _ _ => i

/-- Whether the local model needs an invariant gate block. -/
def LocalModel.needsInvariant : LocalModel → Bool
  | .linear _ _ _ _ => false
  | .nonlinear _ _ _ _ _ _ _ _ => true

/-- The property that a local model carries no additive bias on its
equivariant path (required of every λ>0 key, since a bias would break
equivariance; the gate network's internal biases only touch invariant data). -/
def LocalModel.NoEquivBias : LocalModel → Prop
  | .linear _ _ _ bias => bias = none
  | .nonlinear _ _ _ _ biasIn _ _ biasOut => biasIn = none ∧ biasOut = none

/-- The additive contribution of an optional bias. -/
def addBias : Option (ℕ → ℚ) → ℕ → ℚ
  | none, _ => 0
  | some b, p => b p

/-- Modelled from the spec: the linear map of a local model applied along the
properties axis, identically and independently on every component:
`output = W · input_properties + bias`. -/
def linVals (nin : ℕ) (W : ℕ → ℕ → ℚ) (bias : Option (ℕ → ℚ)) (X : Vals) : Vals :=
  fun s c p => (∑ q in Finset.range nin, W p q * X s c q) + addBias bias p

/-- Modelled from the spec: the gate vector of the nonlinear variant, the
invariant block (single component, index 0) fed through the feed-forward
network, per sample. -/
def gateVals (σf : Activation → ℚ → ℚ) (nn : List NNLayer) (I : Vals) : ℕ → ℕ → ℚ :=
  fun s => evalNN σf nn (fun q => I s 0 q)

/-- Modelled from the spec: the nonlinear local forward pass: project the
equivariant block, multiply each component slice elementwise by the gate
vector computed from the invariant block, and project again. -/
def nlVals (σf : Activation → ℚ → ℚ) (nin nmid : ℕ) (Win : ℕ → ℕ → ℚ)
    (biasIn : Option (ℕ → ℚ)) (nn : List NNLayer) (Wout : ℕ → ℕ → ℚ)
    (biasOut : Option (ℕ → ℚ)) (X I : Vals) : Vals :=
  fun s c p =>
    (∑ q in Finset.range nmid,
      Wout p q * (linVals nin Win biasIn X s c q * gateVals σf nn I s q)) +
    addBias biasOut p

/-- Modelled from the spec: the all-zero block used to pad a missing key: no
samples of that species/channel exist, so the expected shape has an empty
samples axis, `2·λ+1` components and the given property width, and every entry
within the shape is zero. -/
def emptyBlock (lam nprops : ℕ) : Block :=
  ⟨0, 2 * lam + 1, nprops, fun _ _ _ => 0⟩

/-- Modelled from the spec: the input block a global model uses for one of its
keys: the stored block if present, and the zero/empty padding block otherwise
rather than a failure. -/
def inputBlockFor (t : TMap) (k : Key) (nin : ℕ) : Block :=
  match tmLookup t k with
  | some b => b
  | none => emptyBlock k.lam nin

/-- Modelled from the spec: a global model: its key set together with the local
model owned by each key. -/
structure GlobalModel where
  keys : List Key
  locals : Key → LocalModel

/-- Modelled from the spec: the forward pass of one local model inside the
global dispatch.  The nonlinear variant locates the λ=0 block of the same
species in the input collection to serve as its gate input and fails with
`missingInvariant` when no such block exists. -/
def localForward (σf : Activation → ℚ → ℚ) (loc : LocalModel) (k : Key)
    (t : TMap) : Except RhoError Block :=
  match loc with
  | .linear nin nout W bias =>
    let X := inputBlockFor t k nin
    .ok ⟨X.ns, 2 * k.lam + 1, nout, linVals nin W bias X.vals⟩
  | .nonlinear nin nmid nout Win biasIn nn Wout biasOut =>
    match tmLookup t ⟨0, k.species⟩ with
    | none => .error RhoError.missingInvariant
    | some I =>
      let X := inputBlockFor t k nin
      .ok ⟨X.ns, 2 * k.lam + 1, nout,
        nlVals σf nin nmid Win biasIn nn Wout biasOut X.vals I.vals⟩

/-- Dispatch over a list of keys, collecting results in key order. -/
def forwardKeys (σf : Activation → ℚ → ℚ) (m : GlobalModel) (t : TMap) :
    List Key → Except RhoError TMap
  | [] => .ok []
  | k :: ks =>
    match localForward σf (m.locals k) k t, forwardKeys σf m t ks with
    | .ok b, .ok rest => .ok ((k, b) :: rest)
    | .error e, _ => .error e
    | .ok _, .error e => .error e

/-- Modelled from the spec: the global forward pass: dispatch every configured
key to its local model, padding missing input keys, and reassemble a keyed
output collection preserving the global key ordering. -/
def forwardGlobal (σf : Activation → ℚ → ℚ) (m : GlobalModel) (t : TMap) :
    Except RhoError TMap :=
  forwardKeys σf m t m.keys

/-- Modelled from the spec: constructor of a linear local model for a key of
angular order `lam`; requesting a bias for a covariant key (λ>0) is a
configuration error. -/
def mkLinearLocal (lam : ℕ) (useBias : Bool) (nin nout : ℕ) (W : ℕ → ℕ → ℚ)
    (b : ℕ → ℚ) : Except RhoError LocalModel :=
  if 0 < lam ∧ useBias = true then .error RhoError.configError
  else .ok (.linear nin nout W (if useBias then some b else none))

/-- Modelled from the spec: constructor of a nonlinear local model; the bias
flag governs the equivariant-path projections and is rejected for λ>0, while
the gate network always carries biases. -/
def mkNonlinearLocal (lam : ℕ) (useBias : Bool) (nin nmid nout ninv : ℕ)
    (Win : ℕ → ℕ → ℚ) (bIn : ℕ → ℚ) (widths : List ℕ)
    (Wh : ℕ → ℕ → ℕ → ℚ) (bh : ℕ → ℕ → ℚ) (a : Activation)
    (Wout : ℕ → ℕ → ℚ) (bOut : ℕ → ℚ) : Except RhoError LocalModel :=
  if 0 < lam ∧ useBias = true then .error RhoError.configError
  else .ok (.nonlinear nin nmid nout Win (if useBias then some bIn else none)
    (mkFFN a Wh bh 0 ninv widths) Wout (if useBias then some bOut else none))

/-- Modelled from the spec: the fixed absolute tolerance of the equivariance
verifier (default 1e-6). -/
def atolQ : ℚ := 1 / 1000000

/-- Modelled from the spec: the fixed relative tolerance of the equivariance
verifier (default 1e-6). -/
def rtolQ : ℚ := 1 / 1000000

/-- Numerical equality within the verifier's fixed absolute/relative
tolerance, as a Prop. -/
def CloseP (a b : ℚ) : Prop := |a - b| ≤ atolQ + rtolQ * |b|

instance (a b : ℚ) : Decidable (CloseP a b) :=
  inferInstanceAs (Decidable (|a - b| ≤ atolQ + rtolQ * |b|))

/-- Numerical equality within the verifier's fixed absolute/relative
tolerance, as a computable test. -/
def closeB (a b : ℚ) : Bool := decide (CloseP a b)

/-- Componentwise subset test on key lists. -/
def keySub (xs ys : List Key) : Bool := xs.all fun k => decide (k ∈ ys)

/-- Exact numerical equality of two order-0 blocks (single component, index 0)
over the shape of the first. -/
def blockExactEq (bA bB : Block) : Bool :=
  (List.range bA.ns).all fun s =>
    (List.range bA.np).all fun p => decide (bA.vals s 0 p = bB.vals s 0 p)

/-- Tolerance equality between the `D`-rotated components of the first block
and the components of the second, over the shape of the first. -/
def blockRotClose (lam : ℕ) (D : ℕ → ℕ → ℚ) (bA bB : Block) : Bool :=
  (List.range bA.ns).all fun s =>
    (List.range (2 * lam + 1)).all fun c =>
      (List.range bA.np).all fun p =>
        closeB (rotVals lam D bA.vals s c p) (bB.vals s c p)

/-- The verifier's per-entry test: look the key up in `B` (absence is a
failure), then require exact equality for λ=0, rotated tolerance equality for
0<λ≤lmax, and skip orders above `lmax` (no Wigner matrix is built for them). -/
def entryCheck (Df : ℕ → ℕ → ℕ → ℚ) (lmax : ℕ) (B : TMap) (e : Key × Block) :
    Bool :=
  match tmLookup B e.1 with
  | none => false
  | some bB =>
    if e.1.lam = 0 then blockExactEq e.2 bB
    else if e.1.lam ≤ lmax then blockRotClose e.1.lam (Df e.1.lam) e.2 bB
    else true

/-- Modelled from the spec: the equivariance verifier.  `A` comes from the
unrotated input, `B` from the rotated input, `Df` is the family of Wigner-D
matrices built from the rotation's Euler angles for each order up to `lmax`.
A key present on one side only is a verification failure, everything is
checked exhaustively (the sampling cap of the implementation is not modelled;
its absent/None setting is the exhaustive check). -/
def checkEquivariance (Df : ℕ → ℕ → ℕ → ℚ) (lmax : ℕ) (A B : TMap) : Bool :=
  keySub (tmKeys A) (tmKeys B) && keySub (tmKeys B) (tmKeys A) &&
    A.all (entryCheck Df lmax B)

/-- The claim's pass condition, written from its words: for every shared key
with λ>0 (within the verifier's order range) the rotated component vectors of
`A` agree with `B` within tolerance, and for every shared λ=0 key the blocks
are exactly equal. -/
def SharedKeysSpec (Df : ℕ → ℕ → ℕ → ℚ) (lmax : ℕ) (A B : TMap) : Prop :=
  ∀ e ∈ A, ∀ bB : Block, tmLookup B e.1 = some bB →
    (e.1.lam = 0 → ∀ s < e.2.ns, ∀ p < e.2.np, e.2.vals s 0 p = bB.vals s 0 p) ∧
    (0 < e.1.lam → e.1.lam ≤ lmax → ∀ s < e.2.ns, ∀ c < 2 * e.1.lam + 1,
      ∀ p < e.2.np,
      CloseP (rotVals e.1.lam (Df e.1.lam) e.2.vals s c p) (bB.vals s c p))

/-- The verifier's full pass condition: additionally the two collections must
hold exactly the same keys (a key present on one side only is a failure). -/
def CheckPassSpec (Df : ℕ → ℕ → ℕ → ℚ) (lmax : ℕ) (A B : TMap) : Prop :=
  (∀ k ∈ tmKeys A, k ∈ tmKeys B) ∧ (∀ k ∈ tmKeys B, k ∈ tmKeys A) ∧
    SharedKeysSpec Df lmax A B

/-- Modelled from the spec: the dataset reduction of the loss. -/
inductive Reduction where
  | sum
  | mean

/-- The per-structure coefficient residual. -/
def deltaVec (pred targ : ℕ → ℚ) : ℕ → ℚ := fun i => pred i - targ i

/-- Modelled from the spec: the per-structure bilinear form of the Coulomb
loss, the residual vector transformed by the interaction matrix and dotted
with itself: `d · (K · d)`. -/
def bilinearForm (n : ℕ) (K : ℕ → ℕ → ℚ) (d : ℕ → ℚ) : ℚ :=
  ∑ i in Finset.range n, d i * ∑ j in Finset.range n, K i j * d j

/-- The same quantity written as the explicit double sum over basis-function
pairs `Σ_i Σ_j d_i · K_ij · d_j`. -/
def doubleSum (n : ℕ) (K : ℕ → ℕ → ℚ) (d : ℕ → ℚ) : ℚ :=
  ∑ i in Finset.range n, ∑ j in Finset.range n, d i * K i j * d j

/-- Modelled from the spec: `CoulombLoss` over `nstruct` structures with `n`
basis functions per structure: the per-structure bilinear form of the
prediction/target residual with the per-structure interaction matrix, reduced
across structures by sum or mean. -/
def coulombLoss (red : Reduction) (nstruct n : ℕ) (pred targ : ℕ → ℕ → ℚ)
    (K : ℕ → ℕ → ℕ → ℚ) : ℚ :=
  let tot := ∑ s in Finset.range nstruct,
    bilinearForm n (K s) (deltaVec (pred s) (targ s))
  match red with
  | .sum => tot
  | .mean => tot / nstruct

/-! ## The Wigner rotation engine

Modelled from the spec: the engine produces, for a non-negative order λ and
Euler angles (α, β, γ) in z-y-z convention, the `(2λ+1) × (2λ+1)` Wigner-D
matrix `D^λ(α,β,γ) = e^(-iα·Jz) · e^(-iβ·Jy) · e^(-iγ·Jz)` built from the
standard angular-momentum generators on the order-λ irreducible
representation. -/

/-- The ladder coefficient `√(λ(λ+1) − m_k(m_k+1))` for the magnetic quantum
number `m_k = k − λ` of basis index `k`. -/
noncomputable def ladder (l k : ℕ) : ℝ :=
  Real.sqrt ((l : ℝ) * ((l : ℝ) + 1) - ((k : ℝ) - (l : ℝ)) * (((k : ℝ) - (l : ℝ)) + 1))

/-- The generator `Jz` of order λ: diagonal with the magnetic quantum numbers
`m = −λ … λ`. -/
def Jz (l : ℕ) : Matrix (Fin (2 * l + 1)) (Fin (2 * l + 1)) ℂ :=
  Matrix.diagonal fun i => ((i : ℕ) : ℂ) - (l : ℂ)

/-- The generator `Jy = (J₊ − J₋) / (2i)` of order λ, written entrywise. -/
noncomputable def Jy (l : ℕ) : Matrix (Fin (2 * l + 1)) (Fin (2 * l + 1)) ℂ :=
  Matrix.of fun i j =>
    if (i : ℕ) = (j : ℕ) + 1 then (-Complex.I / 2) * ((ladder l (j : ℕ) : ℝ) : ℂ)
    else if (j : ℕ) = (i : ℕ) + 1 then (Complex.I / 2) * ((ladder l (i : ℕ) : ℝ) : ℂ)
    else 0

lemma Jz_herm (l : ℕ) : (Jz l)ᴴ = Jz l := by
  ext i j
  rcases eq_or_ne j i with h | h
  · subst h
    simp [Jz, Matrix.conjTranspose_apply, Matrix.diagonal_apply_eq, map_sub]
  · have h' : i ≠ j := fun hh => h hh.symm
    simp [Jz, Matrix.conjTranspose_apply, Matrix.diagonal_apply_ne _ h,
      Matrix.diagonal_apply_ne _ h']

lemma Jy_herm (l : ℕ) : (Jy l)ᴴ = Jy l := by
  ext i j
  simp only [Matrix.conjTranspose_apply, Jy, Matrix.of_apply]
  by_cases h1 : (i : ℕ) = (j : ℕ) + 1
  · have h2 : ¬(j : ℕ) = (i : ℕ) + 1 := by omega
    rw [if_neg h2, if_pos h1, if_pos h1]
    simp only [Complex.star_def, map_mul, map_div₀, Complex.conj_I, map_neg,
      Complex.conj_ofReal, map_ofNat]
  · by_cases h2 : (j : ℕ) = (i : ℕ) + 1
    · rw [if_pos h2, if_neg h1, if_pos h2]
      simp only [Complex.star_def, map_mul, map_div₀, Complex.conj_I, map_neg,
        Complex.conj_ofReal, map_ofNat]
      ring
    · rw [if_neg h2, if_neg h1, if_neg h1, if_neg h2]
      simp

/-- The rotation factor `e^(-iθ·A)` about the axis whose generator is `A`. -/
noncomputable def expAngle {n : ℕ} (θ : ℝ) (A : Matrix (Fin n) (Fin n) ℂ) :
    Matrix (Fin n) (Fin n) ℂ :=
  NormedSpace.exp ℂ ((-(θ : ℂ) * Complex.I) • A)

lemma expAngle_conjTranspose {n : ℕ} (θ : ℝ) (A : Matrix (Fin n) (Fin n) ℂ)
    (hA : Aᴴ = A) :
    (expAngle θ A)ᴴ = NormedSpace.exp ℂ (-((-(θ : ℂ) * Complex.I) • A)) := by
  rw [expAngle, ← Matrix.exp_conjTranspose]
  congr 1
  rw [Matrix.conjTranspose_smul, hA, ← neg_smul]
  congr 1
  simp only [Complex.star_def, map_mul, map_neg, Complex.conj_I, Complex.conj_ofReal]
  ring

lemma expAngle_mul_conjTranspose {n : ℕ} (θ : ℝ) (A : Matrix (Fin n) (Fin n) ℂ)
    (hA : Aᴴ = A) : expAngle θ A * (expAngle θ A)ᴴ = 1 := by
  rw [expAngle_conjTranspose θ A hA, expAngle,
    ← Matrix.exp_add_of_commute ℂ _ _ ((Commute.refl _).neg_right),
    add_neg_cancel, NormedSpace.exp_zero]

lemma conjTranspose_mul_expAngle {n : ℕ} (θ : ℝ) (A : Matrix (Fin n) (Fin n) ℂ)
    (hA : Aᴴ = A) : (expAngle θ A)ᴴ * expAngle θ A = 1 := by
  rw [expAngle_conjTranspose θ A hA, expAngle,
    ← Matrix.exp_add_of_commute ℂ _ _ ((Commute.refl _).neg_left),
    neg_add_cancel, NormedSpace.exp_zero]

lemma mul3_mul_rev {M : Type*} [Monoid M] {a b c a' b' c' : M}
    (ha : a * a' = 1) (hb : b * b' = 1) (hc : c * c' = 1) :
    a * b * c * (c' * (b' * a')) = 1 := by
  have h1 : c * (c' * (b' * a')) = b' * a' := by rw [← mul_assoc, hc, one_mul]
  have h2 : b * (b' * a') = a' := by rw [← mul_assoc, hb, one_mul]
  calc a * b * c * (c' * (b' * a')) = a * (b * (c * (c' * (b' * a')))) := by
        simp [mul_assoc]
    _ = 1 := by rw [h1, h2, ha]

lemma rev_mul_mul3 {M : Type*} [Monoid M] {a b c a' b' c' : M}
    (ha : a' * a = 1) (hb : b' * b = 1) (hc : c' * c = 1) :
    c' * (b' * a') * (a * b * c) = 1 := by
  have h2 : a' * (a * (b * c)) = b * c := by rw [← mul_assoc, ha, one_mul]
  have h3 : b' * (b * c) = c := by rw [← mul_assoc, hb, one_mul]
  calc c' * (b' * a') * (a * b * c) = c' * (b' * (a' * (a * (b * c)))) := by
        simp [mul_assoc]
    _ = c' * (b' * (b * c)) := by rw [h2]
    _ = c' * c := by rw [h3]
    _ = 1 := hc

/-- Modelled from the spec: the Wigner-D matrix of order λ for Euler angles
(α, β, γ) in z-y-z convention. -/
noncomputable def wignerD (l : ℕ) (α β γ : ℝ) :
    Matrix (Fin (2 * l + 1)) (Fin (2 * l + 1)) ℂ :=
  expAngle α (Jz l) * expAngle β (Jy l) * expAngle γ (Jz l)

/-- Modelled from the spec: the rotation `D^λ · v` of an irreducible spherical
component vector. -/
noncomputable def rotatedISC (l : ℕ) (α β γ : ℝ) (v : List ℂ) : List ℂ :=
  List.ofFn fun i : Fin (2 * l + 1) =>
    ∑ j : Fin (2 * l + 1), wignerD l α β γ i j * v.getD (j : ℕ) 0

/-- Modelled from the spec: the component-vector rotation entry point of the
engine: a negative order is an `invalidOrder` error, a vector whose length is
not `2λ+1` is a `dimensionMismatch` error, otherwise the rotated vector is
returned. -/
noncomputable def rotateISCChecked (lam : ℤ) (α β γ : ℝ) (v : List ℂ) :
    Except RhoError (List ℂ) :=
  if lam < 0 then .error RhoError.invalidOrder
  else if v.length ≠ 2 * lam.toNat + 1 then .error RhoError.dimensionMismatch
  else .ok (rotatedISC lam.toNat α β γ v)

/-- Modelled from the spec: an ASE frame, the chemical species and Cartesian
coordinates of the atoms. -/
structure Frame where
  species : List ℕ
  positions : List (Fin 3 → ℝ)

/-- Cartesian rotation about the z axis. -/
noncomputable def rotZ (θ : ℝ) : Matrix (Fin 3) (Fin 3) ℝ :=
  !![Real.cos θ, -Real.sin θ, 0; Real.sin θ, Real.cos θ, 0; 0, 0, 1]

/-- Cartesian rotation about the y axis. -/
noncomputable def rotY (θ : ℝ) : Matrix (Fin 3) (Fin 3) ℝ :=
  !![Real.cos θ, 0, Real.sin θ; 0, 1, 0; -Real.sin θ, 0, Real.cos θ]

/-- The Cartesian rotation matrix of Euler angles (α, β, γ) in the same z-y-z
convention used by `wignerD`. -/
noncomputable def eulerToCartesian (α β γ : ℝ) : Matrix (Fin 3) (Fin 3) ℝ :=
  rotZ α * rotY β * rotZ γ

lemma rotZ_transpose (θ : ℝ) :
    (rotZ θ)ᵀ =
      !![Real.cos θ, Real.sin θ, 0; -Real.sin θ, Real.cos θ, 0; 0, 0, 1] := by
  ext i j
  fin_cases i <;> fin_cases j <;> simp [rotZ]

lemma rotY_transpose (θ : ℝ) :
    (rotY θ)ᵀ =
      !![Real.cos θ, 0, -Real.sin θ; 0, 1, 0; Real.sin θ, 0, Real.cos θ] := by
  ext i j
  fin_cases i <;> fin_cases j <;> simp [rotY]

lemma rotZ_mul_transpose (θ : ℝ) : rotZ θ * (rotZ θ)ᵀ = 1 := by
  rw [rotZ_transpose, rotZ]
  ext i j
  fin_cases i <;> fin_cases j <;>
    simp [Matrix.mul_apply, Fin.sum_univ_three, Matrix.one_apply] <;>
    (try ring_nf) <;> nlinarith [Real.sin_sq_add_cos_sq θ]

lemma rotY_mul_transpose (θ : ℝ) : rotY θ * (rotY θ)ᵀ = 1 := by
  rw [rotY_transpose, rotY]
  ext i j
  fin_cases i <;> fin_cases j <;>
    simp [Matrix.mul_apply, Fin.sum_univ_three, Matrix.one_apply] <;>
    (try ring_nf) <;> nlinarith [Real.sin_sq_add_cos_sq θ]

lemma eulerToCartesian_mul_transpose (α β γ : ℝ) :
    eulerToCartesian α β γ * (eulerToCartesian α β γ)ᵀ = 1 := by
  rw [eulerToCartesian, Matrix.transpose_mul, Matrix.transpose_mul]
  exact mul3_mul_rev (rotZ_mul_transpose α) (rotY_mul_transpose β)
    (rotZ_mul_transpose γ)

/-- Modelled from the spec: the engine's frame rotation: apply the Cartesian
rotation of a (randomly drawn, here parametric) Euler triple to every atomic
position, producing a rotated copy of the frame together with the triple that
describes the applied rotation. -/
noncomputable def rotateAseFrame (α β γ : ℝ) (f : Frame) : Frame × (ℝ × ℝ × ℝ) :=
  (⟨f.species, f.positions.map fun x => (eulerToCartesian α β γ).mulVec x⟩,
    (α, β, γ))

/-- Modelled from the spec: the Wigner-D family the equivariance verifier
builds from the Euler-angle triple it is given. -/
noncomputable def wignerDOf (angles : ℝ × ℝ × ℝ) (l : ℕ) :
    Matrix (Fin (2 * l + 1)) (Fin (2 * l + 1)) ℂ :=
  wignerD l angles.1 angles.2.1 angles.2.2

/-! ## Architecture of the invariant feed-forward network -/

/-- The number of affine (linear) layers of a network. -/
def countAffine (nn : List NNLayer) : ℕ := nn.countP fun l => l.isAffine

/-- The number of activation layers of a network. -/
def countAct (nn : List NNLayer) : ℕ := nn.countP fun l => l.isAct

/-- Whether a layer list is an affine layer followed by alternating
activation/affine layers (activations only between consecutive affine
layers). -/
def isInterleaved : List NNLayer → Bool
  | [] => true
  | [NNLayer.affine _ _ _ _] => true
  | NNLayer.affine _ _ _ _ :: NNLayer.act _ :: l :: rest => isInterleaved (l :: rest)
  | _ => false

lemma mkFFN_cons_shape (a : Activation) (Wh : ℕ → ℕ → ℕ → ℚ) (bh : ℕ → ℕ → ℚ)
    (i cur w : ℕ) (ws : List ℕ) :
    ∃ t, mkFFN a Wh bh i cur (w :: ws) = NNLayer.affine cur w (Wh i) (bh i) :: t := by
  cases ws with
  | nil => exact ⟨[], rfl⟩
  | cons w2 ws2 =>
    exact ⟨NNLayer.act a :: mkFFN a Wh bh (i + 1) w (w2 :: ws2), rfl⟩

lemma mkFFN_cons_cons (a : Activation) (Wh : ℕ → ℕ → ℕ → ℚ) (bh : ℕ → ℕ → ℚ)
    (i cur w w2 : ℕ) (ws2 : List ℕ) :
    mkFFN a Wh bh i cur (w :: w2 :: ws2) =
      NNLayer.affine cur w (Wh i) (bh i) :: NNLayer.act a ::
        mkFFN a Wh bh (i + 1) w (w2 :: ws2) := rfl

lemma countAffine_affine_cons (n1 n2 : ℕ) (W : ℕ → ℕ → ℚ) (b : ℕ → ℚ)
    (l : List NNLayer) :
    countAffine (NNLayer.affine n1 n2 W b :: l) = countAffine l + 1 := by
  simp [countAffine, List.countP_cons, NNLayer.isAffine]

lemma countAffine_act_cons (x : Activation) (l : List NNLayer) :
    countAffine (NNLayer.act x :: l) = countAffine l := by
  simp [countAffine, List.countP_cons, NNLayer.isAffine]

lemma countAct_affine_cons (n1 n2 : ℕ) (W : ℕ → ℕ → ℚ) (b : ℕ → ℚ)
    (l : List NNLayer) :
    countAct (NNLayer.affine n1 n2 W b :: l) = countAct l := by
  simp [countAct, List.countP_cons, NNLayer.isAct]

lemma countAct_act_cons (x : Activation) (l : List NNLayer) :
    countAct (NNLayer.act x :: l) = countAct l + 1 := by
  simp [countAct, List.countP_cons, NNLayer.isAct]

/-- C7: a nonlinear local model built from a hidden-layer-widths sequence of
length n has an invariant feed-forward sub-network of exactly n linear layers
with exactly n−1 activation functions interleaved between consecutive linear
layers (for any activation choice from the enumerated set and any weight
supplier; stated for any starting layer index and input width). -/
theorem mkFFN_architecture (a : Activation) (Wh : ℕ → ℕ → ℕ → ℚ)
    (bh : ℕ → ℕ → ℚ) (i cur : ℕ) (widths : List ℕ) :
    countAffine (mkFFN a Wh bh i cur widths) = widths.length ∧
    countAct (mkFFN a Wh bh i cur widths) = widths.length - 1 ∧
    isInterleaved (mkFFN a Wh bh i cur widths) = true := by
  induction widths generalizing i cur with
  | nil => simp [mkFFN, countAffine, countAct, isInterleaved]
  | cons w ws ih =>
    cases ws with
    | nil =>
      simp [mkFFN, countAffine, countAct, isInterleaved, List.countP_cons,
        NNLayer.isAffine, NNLayer.isAct]
    | cons w2 ws2 =>
      obtain ⟨h1, h2, h3⟩ := ih (i + 1) w
      obtain ⟨t, ht⟩ := mkFFN_cons_shape a Wh bh (i + 1) w w2 ws2
      refine ⟨?_, ?_, ?_⟩
      · rw [mkFFN_cons_cons, countAffine_affine_cons, countAffine_act_cons, h1]
        simp
      · rw [mkFFN_cons_cons, countAct_affine_cons, countAct_act_cons, h2]
        simp only [List.length_cons]
        omega
      · rw [mkFFN_cons_cons, ht, isInterleaved, ← ht]
        exact h3

/-! ## Claim theorems for the construction, loss, and rotation engine -/

/-- C5: requesting a bias when constructing a linear or nonlinear local model
for a key of angular order λ>0 fails with `configError`; for λ=0 both
constructions succeed, store the biases, and the forward maps apply them
additively (the linear map adds its bias, and the nonlinear variant adds its
output bias after the gated projection and its input bias inside the input
projection). -/
theorem local_bias_rejection (lam nin nmid nout ninv : ℕ)
    (W Win Wout : ℕ → ℕ → ℚ) (b bIn bOut : ℕ → ℚ) (widths : List ℕ)
    (Wh : ℕ → ℕ → ℕ → ℚ) (bh : ℕ → ℕ → ℚ) (a : Activation) (σf : Activation → ℚ → ℚ)
    (nn : List NNLayer) (X I : Vals) :
    (0 < lam →
      mkLinearLocal lam true nin nout W b = .error RhoError.configError) ∧
    (0 < lam →
      mkNonlinearLocal lam true nin nmid nout ninv Win bIn widths Wh bh a Wout
        bOut = .error RhoError.configError) ∧
    (mkLinearLocal 0 true nin nout W b = .ok (.linear nin nout W (some b))) ∧
    (∀ s c p, linVals nin W (some b) X s c p =
      (∑ q in Finset.range nin, W p q * X s c q) + b p) ∧
    (mkNonlinearLocal 0 true nin nmid nout ninv Win bIn widths Wh bh a Wout
        bOut = .ok (.nonlinear nin nmid nout Win (some bIn)
          (mkFFN a Wh bh 0 ninv widths) Wout (some bOut))) ∧
    (∀ s c p, nlVals σf nin nmid Win (some bIn) nn Wout (some bOut) X I s c p =
      (∑ q in Finset.range nmid,
        Wout p q * (((∑ qp in Finset.range nin, Win q qp * X s c qp) + bIn q) *
          gateVals σf nn I s q)) + bOut p) := by
  refine ⟨fun h => ?_, fun h => ?_, ?_, fun s c p => rfl, ?_, fun s c p => rfl⟩
  · rw [mkLinearLocal, if_pos ⟨h, rfl⟩]
  · rw [mkNonlinearLocal, if_pos ⟨h, rfl⟩]
  · rw [mkLinearLocal, if_neg (by simp)]
    simp
  · rw [mkNonlinearLocal, if_neg (by simp)]
    simp

/-- Witness for C5 at λ = 2 with one-dimensional data. -/
theorem local_bias_rejection_witness :
    mkLinearLocal 2 true 1 1 (fun _ _ => 1) (fun _ => 1) =
      .error RhoError.configError ∧
    mkNonlinearLocal 2 true 1 1 1 1 (fun _ _ => 1) (fun _ => 1) [1]
      (fun _ _ _ => 1) (fun _ _ => 1) Activation.silu (fun _ _ => 1)
      (fun _ => 1) = .error RhoError.configError :=
  ⟨(local_bias_rejection 2 1 1 1 1 (fun _ _ => 1) (fun _ _ => 1) (fun _ _ => 1)
      (fun _ => 1) (fun _ => 1) (fun _ => 1) [1] (fun _ _ _ => 1)
      (fun _ _ => 1) Activation.silu (fun _ x => x) [] (fun _ _ _ => 0)
      (fun _ _ _ => 0)).1 (by decide),
   (local_bias_rejection 2 1 1 1 1 (fun _ _ => 1) (fun _ _ => 1) (fun _ _ => 1)
      (fun _ => 1) (fun _ => 1) (fun _ => 1) [1] (fun _ _ _ => 1)
      (fun _ _ => 1) Activation.silu (fun _ x => x) [] (fun _ _ _ => 0)
      (fun _ _ _ => 0)).2.1 (by decide)⟩

/-- C6: the Coulomb loss is the per-structure bilinear form of the residual
with the interaction matrix, reduced by sum or mean; the bilinear form equals
the explicit double sum over basis-function pairs, and the loss vanishes when
the prediction equals the target. -/
theorem coulombLoss_spec (red : Reduction) (nstruct n : ℕ)
    (pred targ : ℕ → ℕ → ℚ) (K : ℕ → ℕ → ℕ → ℚ) :
    (coulombLoss Reduction.sum nstruct n pred targ K =
      ∑ s in Finset.range nstruct, doubleSum n (K s) (deltaVec (pred s) (targ s))) ∧
    (coulombLoss Reduction.mean nstruct n pred targ K =
      (∑ s in Finset.range nstruct,
        doubleSum n (K s) (deltaVec (pred s) (targ s))) / nstruct) ∧
    (pred = targ → coulombLoss red nstruct n pred targ K = 0) := by
  have hb : ∀ (Km : ℕ → ℕ → ℚ) (d : ℕ → ℚ),
      bilinearForm n Km d = doubleSum n Km d := by
    intro Km d
    unfold bilinearForm doubleSum
    refine Finset.sum_congr rfl fun i _ => ?_
    rw [Finset.mul_sum]
    exact Finset.sum_congr rfl fun j _ => by ring
  refine ⟨?_, ?_, fun h => ?_⟩
  · unfold coulombLoss
    exact Finset.sum_congr rfl fun s _ => hb (K s) _
  · unfold coulombLoss
    simp only
    rw [Finset.sum_congr rfl fun s _ => hb (K s) _]
  · subst h
    have hz : ∀ s, bilinearForm n (K s) (deltaVec (pred s) (pred s)) = 0 := by
      intro s
      unfold bilinearForm deltaVec
      simp [sub_self]
    unfold coulombLoss
    cases red <;> simp [hz]

/-- Witness for C6: zero loss at equal prediction and target. -/
theorem coulombLoss_spec_witness :
    coulombLoss Reduction.sum 1 2 (fun _ i => i) (fun _ i => i)
      (fun _ _ _ => 1) = 0 :=
  (coulombLoss_spec Reduction.sum 1 2 (fun _ i => i) (fun _ i => i)
    (fun _ _ _ => 1)).2.2 rfl

/-- C2: for every non-negative integer order λ and every Euler triple
(α, β, γ), the Wigner-D matrix of the rotation engine is a
`(2λ+1) × (2λ+1)` matrix (its index type) and is unitary: the product with
its conjugate transpose is the identity, exactly in the exact-arithmetic
model (the implementation's floating-point tolerance becomes exact
equality). -/
theorem wignerD_unitary (l : ℕ) (α β γ : ℝ) :
    wignerD l α β γ * (wignerD l α β γ)ᴴ = 1 ∧
    (wignerD l α β γ)ᴴ * wignerD l α β γ = 1 := by
  have hDH : (wignerD l α β γ)ᴴ =
      (expAngle γ (Jz l))ᴴ * ((expAngle β (Jy l))ᴴ * (expAngle α (Jz l))ᴴ) := by
    rw [wignerD, Matrix.conjTranspose_mul, Matrix.conjTranspose_mul]
  constructor
  · rw [hDH, wignerD]
    exact mul3_mul_rev (expAngle_mul_conjTranspose α (Jz l) (Jz_herm l))
      (expAngle_mul_conjTranspose β (Jy l) (Jy_herm l))
      (expAngle_mul_conjTranspose γ (Jz l) (Jz_herm l))
  · rw [hDH, wignerD]
    exact rev_mul_mul3 (conjTranspose_mul_expAngle α (Jz l) (Jz_herm l))
      (conjTranspose_mul_expAngle β (Jy l) (Jy_herm l))
      (conjTranspose_mul_expAngle γ (Jz l) (Jz_herm l))

/-- C8: the component-vector rotation fails with `invalidOrder` for every
order λ < 0, fails with `dimensionMismatch` for every vector whose length is
not 2λ+1 (when the order is valid), and succeeds with the rotated vector
`D^λ · v` otherwise. -/
theorem rotateISCChecked_spec (lam : ℤ) (α β γ : ℝ) (v : List ℂ) :
    (lam < 0 →
      rotateISCChecked lam α β γ v = .error RhoError.invalidOrder) ∧
    (0 ≤ lam → v.length ≠ 2 * lam.toNat + 1 →
      rotateISCChecked lam α β γ v = .error RhoError.dimensionMismatch) ∧
    (0 ≤ lam → v.length = 2 * lam.toNat + 1 →
      rotateISCChecked lam α β γ v = .ok (rotatedISC lam.toNat α β γ v)) := by
  refine ⟨fun h => ?_, fun h0 hlen => ?_, fun h0 hlen => ?_⟩
  · rw [rotateISCChecked, if_pos h]
  · rw [rotateISCChecked, if_neg (not_lt.mpr h0), if_pos hlen]
  · rw [rotateISCChecked, if_neg (not_lt.mpr h0), if_neg (by simp [hlen])]

/-- Witness for C8: a negative order, a mismatched vector, and a valid
rotation of a one-component order-0 vector. -/
theorem rotateISCChecked_spec_witness :
    rotateISCChecked (-1) 0 0 0 [] = .error RhoError.invalidOrder ∧
    rotateISCChecked 1 0 0 0 [1] = .error RhoError.dimensionMismatch ∧
    rotateISCChecked 0 0 0 0 [1] = .ok (rotatedISC 0 0 0 0 [1]) :=
  ⟨(rotateISCChecked_spec (-1) 0 0 0 []).1 (by decide),
   (rotateISCChecked_spec 1 0 0 0 [1]).2.1 (by decide) (by simp),
   (rotateISCChecked_spec 0 0 0 0 [1]).2.2 (by decide) (by simp)⟩

/-- C9: the frame rotation returns the Euler triple that describes exactly
the Cartesian rotation applied to the atomic coordinates of a fresh copy of
the frame (species kept, each position multiplied by the orthogonal matrix
`eulerToCartesian α β γ`; the input frame is a value and is not modified),
and the Wigner-D family the verifier builds from that same triple is the
family of the same rotation angles. -/
theorem rotateAseFrame_spec (α β γ : ℝ) (f : Frame) :
    (rotateAseFrame α β γ f).2 = (α, β, γ) ∧
    ((rotateAseFrame α β γ f).1).species = f.species ∧
    ((rotateAseFrame α β γ f).1).positions =
      f.positions.map (fun x => (eulerToCartesian α β γ).mulVec x) ∧
    eulerToCartesian α β γ * (eulerToCartesian α β γ)ᵀ = 1 ∧
    (∀ l, wignerDOf (rotateAseFrame α β γ f).2 l = wignerD l α β γ) :=
  ⟨rfl, rfl, rfl, eulerToCartesian_mul_transpose α β γ, fun _ => rfl⟩

/-! ## Verifier reflection lemmas and claims C3 / C10 -/

lemma tmLookup_eq_none_iff (t : TMap) (k : Key) :
    tmLookup t k = none ↔ k ∉ tmKeys t := by
  induction t with
  | nil => simp [tmLookup, tmKeys]
  | cons e rest ih =>
    obtain ⟨k', b⟩ := e
    by_cases h : k' = k
    · subst h
      simp [tmLookup, tmKeys]
    · simp only [tmLookup, if_neg h, tmKeys, List.map_cons, List.mem_cons]
      rw [show (List.map Prod.fst rest) = tmKeys rest from rfl, ih]
      constructor
      · intro h1 h2
        rcases h2 with h2 | h2
        · exact h h2.symm
        · exact h1 h2
      · intro h1 h2
        exact h1 (Or.inr h2)

lemma keySub_iff (xs ys : List Key) :
    keySub xs ys = true ↔ ∀ k ∈ xs, k ∈ ys := by
  simp [keySub, List.all_eq_true]

lemma closeB_iff (a b : ℚ) : closeB a b = true ↔ CloseP a b := by
  simp [closeB]

lemma blockExactEq_iff (bA bB : Block) :
    blockExactEq bA bB = true ↔
      ∀ s < bA.ns, ∀ p < bA.np, bA.vals s 0 p = bB.vals s 0 p := by
  simp [blockExactEq, List.all_eq_true, List.mem_range]

lemma blockRotClose_iff (lam : ℕ) (D : ℕ → ℕ → ℚ) (bA bB : Block) :
    blockRotClose lam D bA bB = true ↔
      ∀ s < bA.ns, ∀ c < 2 * lam + 1, ∀ p < bA.np,
        CloseP (rotVals lam D bA.vals s c p) (bB.vals s c p) := by
  simp [blockRotClose, List.all_eq_true, List.mem_range, closeB]

/-- C3 (amended form): the verifier passes iff the two collections hold
exactly the same keys, every shared λ=0 key's blocks are exactly equal, and
every shared key with 0 < λ ≤ lmax has the rotated components of `A` within
the fixed tolerance of the components of `B`. -/
theorem checkEquivariance_pass_iff (Df : ℕ → ℕ → ℕ → ℚ) (lmax : ℕ)
    (A B : TMap) :
    checkEquivariance Df lmax A B = true ↔ CheckPassSpec Df lmax A B := by
  constructor
  · intro h
    simp only [checkEquivariance, Bool.and_eq_true, List.all_eq_true] at h
    obtain ⟨⟨hAB, hBA⟩, hall⟩ := h
    refine ⟨(keySub_iff _ _).mp hAB, (keySub_iff _ _).mp hBA, ?_⟩
    intro e he bB hbB
    have hc := hall e he
    simp only [entryCheck, hbB] at hc
    constructor
    · intro h0
      rw [if_pos h0] at hc
      exact (blockExactEq_iff _ _).mp hc
    · intro hpos hle
      rw [if_neg (by omega : ¬e.1.lam = 0), if_pos hle] at hc
      exact (blockRotClose_iff _ _ _ _).mp hc
  · rintro ⟨hAB, hBA, hshared⟩
    simp only [checkEquivariance, Bool.and_eq_true, List.all_eq_true]
    refine ⟨⟨(keySub_iff _ _).mpr hAB, (keySub_iff _ _).mpr hBA⟩, ?_⟩
    intro e he
    have hmem : e.1 ∈ tmKeys B := hAB e.1 (List.mem_map.mpr ⟨e, he, rfl⟩)
    cases hlk : tmLookup B e.1 with
    | none => exact absurd hmem ((tmLookup_eq_none_iff B e.1).mp hlk)
    | some bB =>
      obtain ⟨hzero, hpos⟩ := hshared e he bB hlk
      simp only [entryCheck, hlk]
      by_cases h0 : e.1.lam = 0
      · rw [if_pos h0]
        exact (blockExactEq_iff _ _).mpr (hzero h0)
      · by_cases hle : e.1.lam ≤ lmax
        · rw [if_neg h0, if_pos hle]
          exact (blockRotClose_iff _ _ _ _).mpr
            (hpos (Nat.pos_of_ne_zero h0) hle)
        · rw [if_neg h0, if_neg hle]

/-- C3 counterexample: as frozen, the claim states the verifier passes iff
the shared-key conditions hold, with no requirement that the key sets
coincide.  On a pair of collections with no shared keys at all (here: one key
on the left, nothing on the right) the shared-key conditions hold vacuously
while the verifier fails, because a key present on one side only is a
verification failure. -/
theorem checkEquivariance_shared_iff_false :
    ¬(checkEquivariance (fun _ c cp => if c = cp then 1 else 0) 2
        [(⟨1, 1⟩, ⟨1, 3, 1, fun _ _ _ => 1⟩)] [] = true ↔
      SharedKeysSpec (fun _ c cp => if c = cp then 1 else 0) 2
        [(⟨1, 1⟩, ⟨1, 3, 1, fun _ _ _ => 1⟩)] []) := by
  intro h
  have hspec : SharedKeysSpec (fun _ c cp => if c = cp then 1 else 0) 2
      [(⟨1, 1⟩, ⟨1, 3, 1, fun _ _ _ => 1⟩)] [] := by
    intro e he bB hbB
    simp [tmLookup] at hbB
  have hfalse : checkEquivariance (fun _ c cp => if c = cp then 1 else 0) 2
      [(⟨1, 1⟩, ⟨1, 3, 1, fun _ _ _ => 1⟩)] [] = true := h.mpr hspec
  have hval : checkEquivariance (fun _ c cp => if c = cp then 1 else 0) 2
      [(⟨1, 1⟩, ⟨1, 3, 1, fun _ _ _ => 1⟩)] [] = false := by
    simp [checkEquivariance, keySub, tmKeys]
  rw [hval] at hfalse
  exact absurd hfalse (by decide)

/-- Two collections agree below `lmax` when they have the same keys in the
same order and identical blocks at every key of angular order ≤ lmax (blocks
at higher orders may differ arbitrarily). -/
def AgreeBelow (lmax : ℕ) (t t' : TMap) : Prop :=
  List.Forall₂ (fun e e' : Key × Block =>
    e.1 = e'.1 ∧ (e.1.lam ≤ lmax → e.2 = e'.2)) t t'

lemma agree_keys {lmax : ℕ} {t t' : TMap} (h : AgreeBelow lmax t t') :
    tmKeys t = tmKeys t' := by
  induction h with
  | nil => rfl
  | cons h1 h2 ih =>
    simp only [tmKeys, List.map_cons] at ih ⊢
    exact by rw [h1.1, ih]

lemma agree_lookup {lmax : ℕ} {t t' : TMap} (h : AgreeBelow lmax t t')
    (k : Key) (hk : k.lam ≤ lmax) : tmLookup t k = tmLookup t' k := by
  induction h with
  | nil => rfl
  | @cons e e' r r' h1 h2 ih =>
    obtain ⟨k1, b1⟩ := e
    obtain ⟨k2, b2⟩ := e'
    obtain ⟨h11, h12⟩ := h1
    simp only at h11 h12
    subst h11
    by_cases hkk : k1 = k
    · subst hkk
      simp only [tmLookup, if_pos rfl]
      rw [h12 hk]
      simp
    · simp only [tmLookup, if_neg hkk]
      exact ih

lemma entryCheck_agree {lmax : ℕ} {B B' : TMap} (Df : ℕ → ℕ → ℕ → ℚ)
    (hB : AgreeBelow lmax B B') (e e' : Key × Block) (he1 : e.1 = e'.1)
    (he2 : e.1.lam ≤ lmax → e.2 = e'.2) :
    entryCheck Df lmax B e = entryCheck Df lmax B' e' := by
  unfold entryCheck
  rw [← he1]
  by_cases hle : e.1.lam ≤ lmax
  · rw [agree_lookup hB e.1 hle, he2 hle]
  · have h0 : ¬e.1.lam = 0 := by omega
    have hkeys := agree_keys hB
    cases hlk : tmLookup B e.1 with
    | none =>
      have hlk' : tmLookup B' e.1 = none := by
        rw [tmLookup_eq_none_iff] at hlk ⊢
        rw [← hkeys]
        exact hlk
      rw [hlk']
    | some bB =>
      have hlk' : ∃ bB', tmLookup B' e.1 = some bB' := by
        cases hx : tmLookup B' e.1 with
        | none =>
          rw [tmLookup_eq_none_iff, ← hkeys, ← tmLookup_eq_none_iff] at hx
          rw [hx] at hlk
          exact absurd hlk (by simp)
        | some bB' => exact ⟨bB', rfl⟩
      obtain ⟨bB', hlk'⟩ := hlk'
      rw [hlk']
      simp only [if_neg h0, if_neg hle]

/-- C10: the verifier only compares blocks whose key has angular order
λ ≤ lmax.  Replacing the block data stored at any keys of order above `lmax`
(in either collection, keys kept) cannot change the returned boolean, so such
blocks are never compared and cannot cause a failure. -/
theorem checkEquivariance_lmax_filter (Df : ℕ → ℕ → ℕ → ℚ) (lmax : ℕ)
    (A A' B B' : TMap) (hA : AgreeBelow lmax A A') (hB : AgreeBelow lmax B B') :
    checkEquivariance Df lmax A B = checkEquivariance Df lmax A' B' := by
  unfold checkEquivariance
  rw [agree_keys hA, agree_keys hB]
  have hall : A.all (entryCheck Df lmax B) = A'.all (entryCheck Df lmax B') := by
    induction hA with
    | nil => rfl
    | @cons e e' r r' h1 h2 ih =>
      simp only [List.all_cons]
      rw [entryCheck_agree Df hB e e' h1.1 h1.2, ih]
  rw [hall]

/-- Witness for C10: two collection pairs that differ only in the data of an
order-3 block are indistinguishable to the verifier at lmax = 2. -/
theorem checkEquivariance_lmax_filter_witness :
    checkEquivariance (fun _ c cp => if c = cp then 1 else 0) 2
        [(⟨3, 1⟩, ⟨1, 7, 1, fun _ _ _ => 0⟩)]
        [(⟨3, 1⟩, ⟨1, 7, 1, fun _ _ _ => 0⟩)] =
      checkEquivariance (fun _ c cp => if c = cp then 1 else 0) 2
        [(⟨3, 1⟩, ⟨1, 7, 1, fun _ _ _ => 5⟩)]
        [(⟨3, 1⟩, ⟨1, 7, 1, fun _ _ _ => 5⟩)] :=
  checkEquivariance_lmax_filter _ 2 _ _ _ _
    (List.Forall₂.cons ⟨rfl, fun h => absurd h (by decide)⟩ List.Forall₂.nil)
    (List.Forall₂.cons ⟨rfl, fun h => absurd h (by decide)⟩ List.Forall₂.nil)

/-! ## Equivariance of the model layer (claims C1 / C4) -/

lemma tmLookup_rotTMap (Df : ℕ → ℕ → ℕ → ℚ) (t : TMap) (k : Key) :
    tmLookup (rotTMap Df t) k = (tmLookup t k).map (rotBlock k.lam (Df k.lam)) := by
  induction t with
  | nil => rfl
  | cons e rest ih =>
    obtain ⟨k', b⟩ := e
    by_cases h : k' = k
    · subst h
      simp [rotTMap, tmLookup]
    · simp only [rotTMap, List.map_cons, tmLookup, if_neg h]
      exact ih

lemma rotVals_zeroVals (lam : ℕ) (D : ℕ → ℕ → ℚ) :
    rotVals lam D (fun _ _ _ => (0 : ℚ)) = fun _ _ _ => 0 := by
  funext s c p
  simp [rotVals]

lemma inputBlockFor_rot (Df : ℕ → ℕ → ℕ → ℚ) (t : TMap) (k : Key) (nin : ℕ) :
    inputBlockFor (rotTMap Df t) k nin =
      rotBlock k.lam (Df k.lam) (inputBlockFor t k nin) := by
  unfold inputBlockFor
  rw [tmLookup_rotTMap]
  cases tmLookup t k with
  | none => simp [rotBlock, emptyBlock, rotVals_zeroVals]
  | some b => simp

lemma rotVals_order_zero (D : ℕ → ℕ → ℚ) (hD : D 0 0 = 1) (X : Vals)
    (s p : ℕ) : rotVals 0 D X s 0 p = X s 0 p := by
  unfold rotVals
  norm_num [hD]

lemma linVals_nobias_swap (lam nin : ℕ) (W : ℕ → ℕ → ℚ) (D : ℕ → ℕ → ℚ)
    (X : Vals) (s c p : ℕ) :
    linVals nin W none (rotVals lam D X) s c p =
      rotVals lam D (linVals nin W none X) s c p := by
  unfold linVals rotVals addBias
  simp only [add_zero, Finset.mul_sum]
  rw [Finset.sum_comm]
  exact Finset.sum_congr rfl fun cp _ => Finset.sum_congr rfl fun q _ => by ring

lemma linVals_equivariant (lam nin : ℕ) (W : ℕ → ℕ → ℚ)
    (bias : Option (ℕ → ℚ)) (hbias : 0 < lam → bias = none)
    (D : ℕ → ℕ → ℚ) (hD : lam = 0 → D 0 0 = 1) (X : Vals) (s c p : ℕ)
    (hc : c < 2 * lam + 1) :
    linVals nin W bias (rotVals lam D X) s c p =
      rotVals lam D (linVals nin W bias X) s c p := by
  rcases Nat.eq_zero_or_pos lam with h0 | hpos
  · subst h0
    have hc0 : c = 0 := by omega
    subst hc0
    rw [rotVals_order_zero D (hD rfl)]
    unfold linVals
    congr 1
    exact Finset.sum_congr rfl fun q _ => by
      rw [rotVals_order_zero D (hD rfl)]
  · rw [hbias hpos]
    exact linVals_nobias_swap lam nin W D X s c p

lemma gateVals_rot (σf : Activation → ℚ → ℚ) (nn : List NNLayer) (I Irot : Vals)
    (hI : ∀ s q, Irot s 0 q = I s 0 q) :
    gateVals σf nn Irot = gateVals σf nn I := by
  funext s
  unfold gateVals
  have hfun : (fun q => Irot s 0 q) = fun q => I s 0 q := funext fun q => hI s q
  rw [hfun]

lemma nlVals_equivariant (σf : Activation → ℚ → ℚ) (lam nin nmid : ℕ)
    (Win : ℕ → ℕ → ℚ) (biasIn : Option (ℕ → ℚ)) (nn : List NNLayer)
    (Wout : ℕ → ℕ → ℚ) (biasOut : Option (ℕ → ℚ))
    (hIn : 0 < lam → biasIn = none) (hOut : 0 < lam → biasOut = none)
    (D : ℕ → ℕ → ℚ) (hD : lam = 0 → D 0 0 = 1) (X I Irot : Vals)
    (hI : ∀ s q, Irot s 0 q = I s 0 q) (s c p : ℕ) (hc : c < 2 * lam + 1) :
    nlVals σf nin nmid Win biasIn nn Wout biasOut (rotVals lam D X) Irot s c p =
      rotVals lam D (nlVals σf nin nmid Win biasIn nn Wout biasOut X I) s c p := by
  rcases Nat.eq_zero_or_pos lam with h0 | hpos
  · subst h0
    have hc0 : c = 0 := by omega
    subst hc0
    rw [rotVals_order_zero D (hD rfl)]
    unfold nlVals
    rw [gateVals_rot σf nn I Irot hI]
    have hlin : ∀ q, linVals nin Win biasIn (rotVals 0 D X) s 0 q =
        linVals nin Win biasIn X s 0 q := by
      intro q
      rw [linVals_equivariant 0 nin Win biasIn (fun hh => absurd hh (by omega))
        D hD X s 0 q (by omega), rotVals_order_zero D (hD rfl)]
    congr 1
    exact Finset.sum_congr rfl fun q _ => by rw [hlin q]
  · rw [hIn hpos, hOut hpos]
    unfold nlVals
    rw [gateVals_rot σf nn I Irot hI]
    simp only [addBias, add_zero]
    have hswap : ∀ q, linVals nin Win none (rotVals lam D X) s c q =
        ∑ cp in Finset.range (2 * lam + 1),
          D c cp * linVals nin Win none X s cp q := fun q =>
      linVals_nobias_swap lam nin Win D X s c q
    calc (∑ q in Finset.range nmid,
            Wout p q * (linVals nin Win none (rotVals lam D X) s c q *
              gateVals σf nn I s q))
        = ∑ q in Finset.range nmid, ∑ cp in Finset.range (2 * lam + 1),
            D c cp * (Wout p q * (linVals nin Win none X s cp q *
              gateVals σf nn I s q)) := by
          refine Finset.sum_congr rfl fun q _ => ?_
          rw [hswap q]
          rw [Finset.sum_mul, Finset.mul_sum]
          exact Finset.sum_congr rfl fun cp _ => by ring
      _ = ∑ cp in Finset.range (2 * lam + 1), D c cp *
            ∑ q in Finset.range nmid,
              Wout p q * (linVals nin Win none X s cp q * gateVals σf nn I s q) := by
          rw [Finset.sum_comm]
          exact Finset.sum_congr rfl fun cp _ => by rw [Finset.mul_sum]
      _ = rotVals lam D (fun s c p => ∑ q in Finset.range nmid,
            Wout p q * (linVals nin Win none X s c q * gateVals σf nn I s q))
            s c p := rfl

lemma localForward_ok (σf : Activation → ℚ → ℚ) (loc : LocalModel) (k : Key)
    (t : TMap)
    (hinv : loc.needsInvariant = true → ∃ bI, tmLookup t ⟨0, k.species⟩ = some bI) :
    ∃ b, localForward σf loc k t = .ok b ∧
      b.ns = (inputBlockFor t k loc.nin).ns ∧ b.nc = 2 * k.lam + 1 ∧
      b.np = loc.nout := by
  cases loc with
  | linear nin nout W bias =>
    exact ⟨_, rfl, rfl, rfl, rfl⟩
  | nonlinear nin nmid nout Win biasIn nn Wout biasOut =>
    obtain ⟨bI, hbI⟩ := hinv rfl
    exact ⟨⟨(inputBlockFor t k nin).ns, 2 * k.lam + 1, nout,
      nlVals σf nin nmid Win biasIn nn Wout biasOut
        (inputBlockFor t k nin).vals bI.vals⟩,
      by simp only [localForward, hbI], rfl, rfl, rfl⟩

lemma rotBlock_vals (lam : ℕ) (D : ℕ → ℕ → ℚ) (b : Block) :
    (rotBlock lam D b).vals = rotVals lam D b.vals := rfl

lemma rotBlock_ns (lam : ℕ) (D : ℕ → ℕ → ℚ) (b : Block) :
    (rotBlock lam D b).ns = b.ns := rfl

lemma localForward_equivariant (σf : Activation → ℚ → ℚ) (loc : LocalModel)
    (k : Key) (t : TMap) (Df : ℕ → ℕ → ℕ → ℚ) (hD0 : Df 0 0 0 = 1)
    (hbias : 0 < k.lam → loc.NoEquivBias)
    (hinv : loc.needsInvariant = true → ∃ bI, tmLookup t ⟨0, k.species⟩ = some bI) :
    ∃ b1 b2, localForward σf loc k t = .ok b1 ∧
      localForward σf loc k (rotTMap Df t) = .ok b2 ∧
      b2.ns = b1.ns ∧
      ∀ s c p, c < 2 * k.lam + 1 →
        b2.vals s c p = rotVals k.lam (Df k.lam) b1.vals s c p := by
  have hD : k.lam = 0 → Df k.lam 0 0 = 1 := fun h => by rw [h]; exact hD0
  cases loc with
  | linear nin nout W bias =>
    have hb : 0 < k.lam → bias = none := fun h => hbias h
    refine ⟨_, _, rfl, rfl, ?_, ?_⟩
    · rw [inputBlockFor_rot, rotBlock_ns]
    · intro s c p hc
      show linVals nin W bias (inputBlockFor (rotTMap Df t) k nin).vals s c p =
        rotVals k.lam (Df k.lam)
          (linVals nin W bias (inputBlockFor t k nin).vals) s c p
      rw [inputBlockFor_rot, rotBlock_vals]
      exact linVals_equivariant k.lam nin W bias hb (Df k.lam) hD
        (inputBlockFor t k nin).vals s c p hc
  | nonlinear nin nmid nout Win biasIn nn Wout biasOut =>
    obtain ⟨bI, hbI⟩ := hinv rfl
    have hbI2 : tmLookup (rotTMap Df t) ⟨0, k.species⟩ =
        some (rotBlock 0 (Df 0) bI) := by
      rw [tmLookup_rotTMap, hbI]
      rfl
    have hIn : 0 < k.lam → biasIn = none := fun h => (hbias h).1
    have hOut : 0 < k.lam → biasOut = none := fun h => (hbias h).2
    have hI : ∀ s q, (rotBlock 0 (Df 0) bI).vals s 0 q = bI.vals s 0 q := by
      intro s q
      rw [rotBlock_vals]
      exact rotVals_order_zero (Df 0) hD0 bI.vals s q
    refine ⟨⟨(inputBlockFor t k nin).ns, 2 * k.lam + 1, nout,
        nlVals σf nin nmid Win biasIn nn Wout biasOut
          (inputBlockFor t k nin).vals bI.vals⟩,
      ⟨(inputBlockFor (rotTMap Df t) k nin).ns, 2 * k.lam + 1, nout,
        nlVals σf nin nmid Win biasIn nn Wout biasOut
          (inputBlockFor (rotTMap Df t) k nin).vals
          (rotBlock 0 (Df 0) bI).vals⟩, ?_, ?_, ?_, ?_⟩
    · simp only [localForward, hbI]
    · simp only [localForward, hbI2]
    · rw [inputBlockFor_rot, rotBlock_ns]
    · intro s c p hc
      show nlVals σf nin nmid Win biasIn nn Wout biasOut
          (inputBlockFor (rotTMap Df t) k nin).vals
          (rotBlock 0 (Df 0) bI).vals s c p =
        rotVals k.lam (Df k.lam)
          (nlVals σf nin nmid Win biasIn nn Wout biasOut
            (inputBlockFor t k nin).vals bI.vals) s c p
      rw [inputBlockFor_rot, rotBlock_vals]
      exact nlVals_equivariant σf k.lam nin nmid Win biasIn nn Wout biasOut
        hIn hOut (Df k.lam) hD (inputBlockFor t k nin).vals bI.vals
        (rotBlock 0 (Df 0) bI).vals hI s c p hc

lemma forwardKeys_ok (σf : Activation → ℚ → ℚ) (m : GlobalModel) (t : TMap) :
    ∀ ks : List Key,
      (∀ k ∈ ks, ∃ b, localForward σf (m.locals k) k t = .ok b) →
      ∃ out, forwardKeys σf m t ks = .ok out ∧
        ∀ k ∈ ks, ∀ b, localForward σf (m.locals k) k t = .ok b →
          tmLookup out k = some b := by
  intro ks
  induction ks with
  | nil => exact fun _ => ⟨[], rfl, by simp⟩
  | cons k rest ih =>
    intro h
    obtain ⟨b, hb⟩ := h k (List.mem_cons_self k rest)
    obtain ⟨out, hout, hprop⟩ :=
      ih fun k' hk' => h k' (List.mem_cons_of_mem k hk')
    refine ⟨(k, b) :: out, ?_, ?_⟩
    · simp only [forwardKeys, hb, hout]
    · intro k' hk' b' hb'
      by_cases hkk : k = k'
      · subst hkk
        rw [hb] at hb'
        injection hb' with hbb
        subst hbb
        simp [tmLookup]
      · simp only [tmLookup, if_neg hkk]
        refine hprop k' ?_ b' hb'
        rcases List.mem_cons.mp hk' with h1 | h1
        · exact absurd h1.symm hkk
        · exact h1

/-- C1: for every global model whose keys have angular order λ ≤ 2, every
weight assignment without bias on the λ>0 equivariant paths, every input
collection (gate invariants present for nonlinear local models), and every
family `Df` of rotation matrices whose order-0 member acts as the identity
(as every Wigner-D family `D^λ(α,β,γ)` does), the forward pass commutes with
the rotation action: rotating each component vector of the prediction on the
unrotated input by the order-λ matrix gives, for every key, the prediction on
the rotated input.  The proof covers both the linear and the nonlinear
invariant-gated variants and does not use the λ ≤ 2 bound, which only mirrors
the claim's scope. -/
theorem global_model_equivariance (σf : Activation → ℚ → ℚ) (m : GlobalModel)
    (Df : ℕ → ℕ → ℕ → ℚ) (t : TMap) (hD0 : Df 0 0 0 = 1)
    (_hlam : ∀ k ∈ m.keys, k.lam ≤ 2)
    (hbias : ∀ k ∈ m.keys, 0 < k.lam → (m.locals k).NoEquivBias)
    (hinv : ∀ k ∈ m.keys, (m.locals k).needsInvariant = true →
      ∃ bI, tmLookup t ⟨0, k.species⟩ = some bI) :
    ∃ out1 out2, forwardGlobal σf m t = .ok out1 ∧
      forwardGlobal σf m (rotTMap Df t) = .ok out2 ∧
      ∀ k ∈ m.keys, ∃ b1 b2, tmLookup out1 k = some b1 ∧
        tmLookup out2 k = some b2 ∧
        ∀ s c p, c < 2 * k.lam + 1 →
          b2.vals s c p = rotVals k.lam (Df k.lam) b1.vals s c p := by
  have hloc : ∀ k ∈ m.keys, ∃ b1 b2,
      localForward σf (m.locals k) k t = .ok b1 ∧
      localForward σf (m.locals k) k (rotTMap Df t) = .ok b2 ∧
      b2.ns = b1.ns ∧
      ∀ s c p, c < 2 * k.lam + 1 →
        b2.vals s c p = rotVals k.lam (Df k.lam) b1.vals s c p :=
    fun k hk => localForward_equivariant σf (m.locals k) k t Df hD0
      (hbias k hk) (hinv k hk)
  obtain ⟨out1, hout1, hprop1⟩ := forwardKeys_ok σf m t m.keys
    fun k hk => (hloc k hk).imp fun b1 hb1 => hb1.choose_spec.1
  obtain ⟨out2, hout2, hprop2⟩ := forwardKeys_ok σf m (rotTMap Df t) m.keys
    fun k hk => ((hloc k hk).choose_spec).imp fun b2 hb2 => hb2.2.1
  refine ⟨out1, out2, hout1, hout2, fun k hk => ?_⟩
  obtain ⟨b1, b2, hb1, hb2, _, hrel⟩ := hloc k hk
  exact ⟨b1, b2, hprop1 k hk b1 hb1, hprop2 k hk b2 hb2, hrel⟩

/-- Witness for C1: a single-key (λ=1, carbon) linear model with unit weight,
the identity rotation family, and an empty input collection. -/
theorem global_model_equivariance_witness :
    ∃ out1 out2,
      forwardGlobal (fun _ x => x)
        ⟨[⟨1, 6⟩], fun _ => .linear 1 1 (fun _ _ => 1) none⟩ [] = .ok out1 ∧
      forwardGlobal (fun _ x => x)
        ⟨[⟨1, 6⟩], fun _ => .linear 1 1 (fun _ _ => 1) none⟩
        (rotTMap (fun _ c cp => if c = cp then 1 else 0) []) = .ok out2 ∧
      ∀ k ∈ [(⟨1, 6⟩ : Key)], ∃ b1 b2, tmLookup out1 k = some b1 ∧
        tmLookup out2 k = some b2 ∧
        ∀ s c p, c < 2 * k.lam + 1 →
          b2.vals s c p =
            rotVals k.lam ((fun _ c cp => if c = cp then (1 : ℚ) else 0) k.lam)
              b1.vals s c p :=
  global_model_equivariance (fun _ x => x)
    ⟨[⟨1, 6⟩], fun _ => .linear 1 1 (fun _ _ => 1) none⟩
    (fun _ c cp => if c = cp then 1 else 0) [] (by norm_num)
    (by intro k hk; rw [List.mem_singleton] at hk; subst hk; decide)
    (by intro k hk hpos; exact rfl)
    (by intro k hk h; exact Bool.noConfusion h)

/-- C4: a forward pass of a configured global model on an input collection
that lacks one of the model's keys does not fail (gate invariants present for
nonlinear local models): it produces for the missing key the zero block of
the expected shape — no samples of that species/channel, `2·λ+1` components,
the local model's output property width, and every entry within that shape
zero — while every present key dispatches normally. -/
theorem forward_missing_key_pads (σf : Activation → ℚ → ℚ) (m : GlobalModel)
    (t : TMap) (k : Key)
    (hinv : ∀ kp ∈ m.keys, (m.locals kp).needsInvariant = true →
      ∃ bI, tmLookup t ⟨0, kp.species⟩ = some bI)
    (hk : k ∈ m.keys) (hmiss : tmLookup t k = none) :
    ∃ out, forwardGlobal σf m t = .ok out ∧
      ∃ b, tmLookup out k = some b ∧
        b.ns = 0 ∧ b.nc = 2 * k.lam + 1 ∧ b.np = (m.locals k).nout ∧
        ∀ s c q, s < b.ns → b.vals s c q = 0 := by
  obtain ⟨out, hout, hprop⟩ := forwardKeys_ok σf m t m.keys
    fun kp hkp => ((localForward_ok σf (m.locals kp) kp t (hinv kp hkp)).imp
      fun b hb => hb.1)
  obtain ⟨b, hb, hns, hnc, hnp⟩ := localForward_ok σf (m.locals k) k t (hinv k hk)
  refine ⟨out, hout, b, hprop k hk b hb, ?_, hnc, hnp, ?_⟩
  · rw [hns]
    unfold inputBlockFor
    rw [hmiss]
    rfl
  · intro s c q hs
    have hns0 : b.ns = 0 := by
      rw [hns]
      unfold inputBlockFor
      rw [hmiss]
      rfl
    rw [hns0] at hs
    exact absurd hs (Nat.not_lt_zero s)

/-- Witness for C4: the single-key linear model applied to the empty input
collection, which lacks its key. -/
theorem forward_missing_key_pads_witness :
    ∃ out, forwardGlobal (fun _ x => x)
        ⟨[⟨1, 6⟩], fun _ => .linear 1 1 (fun _ _ => 1) none⟩ [] = .ok out ∧
      ∃ b, tmLookup out ⟨1, 6⟩ = some b ∧
        b.ns = 0 ∧ b.nc = 2 * (⟨1, 6⟩ : Key).lam + 1 ∧
        b.np = ((fun _ => LocalModel.linear 1 1 (fun _ _ => 1) none)
          (⟨1, 6⟩ : Key)).nout ∧
        ∀ s c q, s < b.ns → b.vals s c q = 0 :=
  forward_missing_key_pads (fun _ x => x)
    ⟨[⟨1, 6⟩], fun _ => .linear 1 1 (fun _ _ => 1) none⟩ [] ⟨1, 6⟩
    (by intro kp hkp h; exact Bool.noConfusion h)
    (List.mem_singleton.mpr rfl) rfl

end Rho
